import Mathlib

/-!
Verification of the miniDB storage core: a shallow embedding of the
key-value store (`kv_store.py`), the secondary-index engine
(`indexing.py`), the table layer (`table.py`) and the transaction layer
(`transaction.py`), together with theorems settling the spec's claims
about them.

Modelling conventions:
* Python dicts become association lists over `String`; `set` replaces the
  first binding in place (dict insertion-order semantics), `del` removes
  the key's bindings, lookups see the first binding.
* The shelve-backed store maps string keys to string payloads.  Its `get`
  returns the stored value or the sentinel string
  `"Key <k> not found in <db>"`, exactly as the source builds it.
* Row field values (`FVal`) model the Python scalars used by the repo:
  int, str and None.  `json.dumps`/`json.loads` of a row dict are modelled
  by an executable encoder/decoder for that fragment of JSON (object of
  string keys with int/str/null values, default separators), for which
  the round-trip theorem is proved.
* Exceptions are modelled with `Option`/`Except`: `none`/`.error` means
  the Python call raised.
* The only nondeterminism — an underlying store write failing mid-commit —
  is resolved by an oracle `failIdx : Option Nat` naming the first
  store operation of the commit loop that raises, if any.
-/

namespace MiniDB

/-! ### Field values (the dynamic scalars a row can hold) -/

inductive FVal where
  | fint : Int → FVal
  | fstr : String → FVal
  | fnone : FVal
deriving DecidableEq

abbrev RowData := List (String × FVal)

/-! ### Decimal printing, modelling Python `str(int)` -/

def natCharsGo : Nat → Nat → List Char → List Char
  | 0, _, acc => acc
  | fuel + 1, n, acc =>
    if n = 0 then acc
    else natCharsGo fuel (n / 10) (Nat.digitChar (n % 10) :: acc)

def natChars (n : Nat) : List Char :=
  if n = 0 then ['0'] else natCharsGo n n []

def intChars (i : Int) : List Char :=
  if i < 0 then '-' :: natChars i.natAbs else natChars i.natAbs

/-- Python `str(value)` as used by the index engine: ints print in
decimal, strings print as themselves, `None` prints as `"None"`. -/
def strF : FVal → String
  | .fint i => String.mk (intChars i)
  | .fstr s => s
  | .fnone => "None"

/-! ### Association lists modelling Python dicts -/

def alistGet {α : Type} : List (String × α) → String → Option α
  | [], _ => none
  | (k', v) :: rest, k => if k' = k then some v else alistGet rest k

def alistSet {α : Type} : List (String × α) → String → α → List (String × α)
  | [], k, v => [(k, v)]
  | (k', v') :: rest, k, v =>
    if k' = k then (k, v) :: rest else (k', v') :: alistSet rest k v

def alistDel {α : Type} : List (String × α) → String → List (String × α)
  | [], _ => []
  | (k', v') :: rest, k =>
    if k' = k then alistDel rest k else (k', v') :: alistDel rest k

/-! ### Key-value store (`kv_store.py`) -/

structure KVStore where
  dbName : String
  db : List (String × String)
deriving DecidableEq

def KVStore.lookup (st : KVStore) (k : String) : Option String :=
  alistGet st.db k

/-- `KVStore.get`: `self.db.get(key, f"Key {key} not found in {self.db_name}")`. -/
def KVStore.get (st : KVStore) (k : String) : String :=
  match alistGet st.db k with
  | some v => v
  | none => "Key " ++ k ++ " not found in " ++ st.dbName

def KVStore.set (st : KVStore) (k v : String) : KVStore :=
  { st with db := alistSet st.db k v }

/-- `KVStore.delete`: `if key in self.db: del self.db[key]` (no-op if absent). -/
def KVStore.delete (st : KVStore) (k : String) : KVStore :=
  { st with db := alistDel st.db k }

/-- The `data.startswith("Key ")` test used by `Table.query`/`list_rows`. -/
def hasKeyMarker : List Char → Bool
  | 'K' :: 'e' :: 'y' :: ' ' :: _ => true
  | _ => false

/-! ### JSON serialization of a row dict (model of `json.dumps`/`json.loads`) -/

def escChar (c : Char) : List Char :=
  if c = '"' then ['\\', '"'] else if c = '\\' then ['\\', '\\'] else [c]

def escape (l : List Char) : List Char :=
  (l.map escChar).flatten

def encVal : FVal → List Char
  | .fint i => intChars i
  | .fstr s => '"' :: (escape s.data ++ ['"'])
  | .fnone => ['n', 'u', 'l', 'l']

def encPair (p : String × FVal) : List Char :=
  '"' :: (escape p.1.data ++ '"' :: ':' :: ' ' :: encVal p.2)

def encFieldsAux : RowData → List Char
  | [] => ['\x7d']
  | [p] => encPair p ++ ['\x7d']
  | p :: ps => encPair p ++ ',' :: ' ' :: encFieldsAux ps

def encodeRow (d : RowData) : List Char :=
  '\x7b' :: encFieldsAux d

def jsonDumps (d : RowData) : String :=
  String.mk (encodeRow d)

def isDig (c : Char) : Bool :=
  48 ≤ c.toNat && c.toNat ≤ 57

def digitVal (c : Char) : Nat :=
  c.toNat - 48

def parseStr : List Char → Option (List Char × List Char)
  | [] => none
  | c :: rest =>
    if c = '"' then some ([], rest)
    else if c = '\\' then
      match rest with
      | [] => none
      | c2 :: rest2 =>
        if c2 = '"' ∨ c2 = '\\' then
          (parseStr rest2).map (fun p => (c2 :: p.1, p.2))
        else none
    else (parseStr rest).map (fun p => (c :: p.1, p.2))

def parseNatGo : List Char → Nat → Nat × List Char
  | [], acc => (acc, [])
  | c :: rest, acc =>
    if isDig c then parseNatGo rest (acc * 10 + digitVal c) else (acc, c :: rest)

def parseNatCh : List Char → Option (Nat × List Char)
  | [] => none
  | c :: rest => if isDig c then some (parseNatGo rest (digitVal c)) else none

def parseIntCh : List Char → Option (Int × List Char)
  | [] => none
  | c :: rest =>
    if c = '-' then (parseNatCh rest).map (fun p => (-(p.1 : Int), p.2))
    else (parseNatCh (c :: rest)).map (fun p => ((p.1 : Int), p.2))

def parseVal : List Char → Option (FVal × List Char)
  | [] => none
  | c :: rest =>
    if c = '"' then
      (parseStr rest).map (fun p => (FVal.fstr (String.mk p.1), p.2))
    else if c = 'n' then
      if rest.take 3 = ['u', 'l', 'l'] then some (FVal.fnone, rest.drop 3)
      else none
    else
      (parseIntCh (c :: rest)).map (fun p => (FVal.fint p.1, p.2))

def parsePair (l : List Char) : Option ((String × FVal) × List Char) :=
  match l with
  | '"' :: rest =>
    match parseStr rest with
    | none => none
    | some (k, r1) =>
      match r1 with
      | ':' :: ' ' :: r2 =>
        match parseVal r2 with
        | none => none
        | some (v, r3) => some ((String.mk k, v), r3)
      | _ => none
  | _ => none

def parseFieldsF : Nat → List Char → Option (RowData × List Char)
  | 0, _ => none
  | fuel + 1, l =>
    match parsePair l with
    | none => none
    | some (p, r) =>
      match r with
      | '\x7d' :: r2 => some ([p], r2)
      | ',' :: ' ' :: r2 =>
        match parseFieldsF fuel r2 with
        | some (fs, r3) => some (p :: fs, r3)
        | none => none
      | _ => none

def parseRow (l : List Char) : Option RowData :=
  match l with
  | '\x7b' :: '\x7d' :: rest => if rest.isEmpty then some [] else none
  | '\x7b' :: rest =>
    match parseFieldsF rest.length rest with
    | some (fs, rem) => if rem.isEmpty then some fs else none
    | none => none
  | _ => none

def jsonLoads (s : String) : Option RowData :=
  parseRow s.data

/-- The remainder does not begin with a decimal digit (used to delimit
number parses). -/
def notDigStart (l : List Char) : Prop :=
  ∀ c, l.head? = some c → isDig c = false

/-! ### Index engine (`indexing.py`) -/

structure Index where
  tableName : String
  fieldName : String
  buckets : List (String × List String)
deriving DecidableEq

def Index.indexKey (idx : Index) : String :=
  "idx:" ++ idx.tableName ++ ":" ++ idx.fieldName

def encStrL (s : String) : List Char :=
  '"' :: (escape s.data ++ ['"'])

def encIdList : List String → List Char
  | [] => []
  | [x] => encStrL x
  | x :: xs => encStrL x ++ ',' :: ' ' :: encIdList xs

def encBucket (b : String × List String) : List Char :=
  encStrL b.1 ++ ':' :: ' ' :: '[' :: (encIdList b.2 ++ [']'])

def encBuckets : List (String × List String) → List Char
  | [] => []
  | [b] => encBucket b
  | b :: bs => encBucket b ++ ',' :: ' ' :: encBuckets bs

/-- The persisted index blob: `json.dumps({k: list(v) for k, v in index})`. -/
def indexBlobStr (bs : List (String × List String)) : String :=
  String.mk ('\x7b' :: (encBuckets bs ++ ['\x7d']))

/-- `Index._save_index`: rewrite the whole blob under `idx:<table>:<field>`. -/
def Index.saveIndex (idx : Index) (st : KVStore) : KVStore :=
  st.set idx.indexKey (indexBlobStr idx.buckets)

def bucketAdd (bs : List (String × List String)) (sv k : String) :
    List (String × List String) :=
  match alistGet bs sv with
  | none => bs ++ [(sv, [k])]
  | some ids => if k ∈ ids then bs else alistSet bs sv (ids ++ [k])

/-- `Index.add_entry`: skip `None`, stringify the value, add the row key
to that bucket, persist the blob. -/
def Index.addEntry (idx : Index) (st : KVStore) (rowKey : String) (v : FVal) :
    Index × KVStore :=
  if v = FVal.fnone then (idx, st)
  else
    let idx2 := { idx with buckets := bucketAdd idx.buckets (strF v) rowKey }
    (idx2, idx2.saveIndex st)

/-- `Index.remove_entry`: skip `None`; if the stringified value has a
bucket, discard the row key, prune the bucket if now empty, persist. -/
def Index.removeEntry (idx : Index) (st : KVStore) (rowKey : String) (v : FVal) :
    Index × KVStore :=
  if v = FVal.fnone then (idx, st)
  else
    match alistGet idx.buckets (strF v) with
    | none => (idx, st)
    | some ids =>
      let ids2 := ids.filter (fun x => x != rowKey)
      let idx2 := { idx with
        buckets :=
          if ids2.isEmpty then alistDel idx.buckets (strF v)
          else alistSet idx.buckets (strF v) ids2 }
      (idx2, idx2.saveIndex st)

/-- `Index.update_entry`: remove the old value, then add the new one. -/
def Index.updateEntry (idx : Index) (st : KVStore) (rowKey : String)
    (oldV newV : FVal) : Index × KVStore :=
  let r := idx.removeEntry st rowKey oldV
  r.1.addEntry r.2 rowKey newV

/-- `Index.find_rows`: exact-match lookup on the stringified value. -/
def Index.findRows (idx : Index) (v : FVal) : List String :=
  (alistGet idx.buckets (strF v)).getD []

/-- Python string `<=`: lexicographic comparison by code point. -/
def lexLe : List Char → List Char → Bool
  | [], _ => true
  | _ :: _, [] => false
  | a :: xs, b :: ys =>
    if a.toNat < b.toNat then true
    else if b.toNat < a.toNat then false
    else lexLe xs ys

/-- `Index.find_range`: union of the buckets whose stringified key lies in
`[str(start), str(end)]` under lexicographic string comparison. -/
def Index.findRange (idx : Index) (startV endV : FVal) : List String :=
  ((idx.buckets.filter (fun p =>
      lexLe (strF startV).data p.1.data && lexLe p.1.data (strF endV).data)).map
    Prod.snd).flatten

structure IndexManager where
  indexes : List (String × Index)
deriving DecidableEq

def IndexManager.getIndex (im : IndexManager) (tname fname : String) : Option Index :=
  alistGet im.indexes (tname ++ ":" ++ fname)

def IndexManager.setIndex (im : IndexManager) (k : String) (idx : Index) :
    IndexManager :=
  { im with indexes := alistSet im.indexes k idx }

/-! ### Table layer (`table.py`) -/

/-- A table's configuration: its name and optional schema.  The schema is
the external validation collaborator: `none` means no schema (row data
passes through `_validate_row` unchanged); `some f` means `f` models
`schema.validate`, with `none` results standing for a raised
`SchemaValidationError`. -/
structure TableCfg where
  name : String
  schema : Option (RowData → Option RowData)

/-- `Table._validate_row`. -/
def validateRow (t : TableCfg) (row : RowData) : Option RowData :=
  match t.schema with
  | none => some row
  | some f => f row

/-- `Table.query`: read the composite key; a sentinel payload (any value
starting with `"Key "`) is "no row" (`some none`); a payload that fails to
decode raises (`none`). -/
def Table.query (t : TableCfg) (st : KVStore) (key : String) :
    Option (Option RowData) :=
  let data := st.get (t.name ++ ":" ++ key)
  if hasKeyMarker data.data then some none
  else
    match parseRow data.data with
    | some r => some (some r)
    | none => none

/-- The index fan-out of `Table.insert`: for every field of the validated
data that has a registered index, add an entry `(row_key, value)`. -/
def addRowEntries (tname : String) : RowData → String → KVStore → IndexManager →
    KVStore × IndexManager
  | [], _, st, im => (st, im)
  | (f, v) :: rest, rowKey, st, im =>
    match im.getIndex tname f with
    | none => addRowEntries tname rest rowKey st im
    | some idx =>
      let r := idx.addEntry st rowKey v
      addRowEntries tname rest rowKey r.2 (im.setIndex (tname ++ ":" ++ f) r.1)

/-- `Table.insert`: validate, store the serialized row under
`"<name>:<key>"`, then update the indexes.  `newKey` stands for the fresh
`str(uuid.uuid4())`; validation failure raises (`none`). -/
def Table.insert (t : TableCfg) (st : KVStore) (im : IndexManager)
    (newKey : String) (row : RowData) :
    Option (String × KVStore × IndexManager) :=
  match validateRow t row with
  | none => none
  | some vd =>
    let st1 := st.set (t.name ++ ":" ++ newKey) (jsonDumps vd)
    let r := addRowEntries t.name vd newKey st1 im
    some (newKey, r.1, r.2)

/-- Python `row.columns.get(field_name)` (absent field reads as `None`). -/
def rowGetD (row : RowData) (f : String) : FVal :=
  (alistGet row f).getD FVal.fnone

/-- Python `dict.update`: merge `upd` into `base`, existing keys replaced
in place, new keys appended. -/
def dictMerge (base upd : RowData) : RowData :=
  upd.foldl (fun acc p => alistSet acc p.1 p.2) base

/-- The index fan-out of `Table.update`: for every field in `updates`
that has a registered index, `update_entry(key, old_value, new_value)`. -/
def updateRowEntries (tname : String) : RowData → RowData → String → KVStore →
    IndexManager → KVStore × IndexManager
  | [], _, _, st, im => (st, im)
  | (f, nv) :: rest, row, rowKey, st, im =>
    match im.getIndex tname f with
    | none => updateRowEntries tname rest row rowKey st im
    | some idx =>
      let r := idx.updateEntry st rowKey (rowGetD row f) nv
      updateRowEntries tname rest row rowKey r.2
        (im.setIndex (tname ++ ":" ++ f) r.1)

/-- `Table.update`: no-op returning `false` if the row is absent;
otherwise merge the updates, re-validate, update the affected indexes,
then persist the merged row.  `none` means a raised exception (decode or
validation failure). -/
def Table.update (t : TableCfg) (st : KVStore) (im : IndexManager)
    (key : String) (updates : RowData) :
    Option (Bool × KVStore × IndexManager) :=
  match Table.query t st key with
  | none => none
  | some none => some (false, st, im)
  | some (some row) =>
    let newData := dictMerge row updates
    match validateRow t newData with
    | none => none
    | some vd =>
      let r := updateRowEntries t.name updates row key st im
      some (true, r.1.set (t.name ++ ":" ++ key) (jsonDumps vd), r.2)

/-- The index fan-out of `Table.delete`: for every field currently on the
row that has a registered index, remove the entry. -/
def removeRowEntries (tname : String) : RowData → String → KVStore →
    IndexManager → KVStore × IndexManager
  | [], _, st, im => (st, im)
  | (f, v) :: rest, rowKey, st, im =>
    match im.getIndex tname f with
    | none => removeRowEntries tname rest rowKey st im
    | some idx =>
      let r := idx.removeEntry st rowKey v
      removeRowEntries tname rest rowKey r.2
        (im.setIndex (tname ++ ":" ++ f) r.1)

/-- `Table.delete`: no-op returning `false` if the row is absent;
otherwise remove every index entry for every field on the row, then
delete the storage key. -/
def Table.delete (t : TableCfg) (st : KVStore) (im : IndexManager)
    (key : String) : Option (Bool × KVStore × IndexManager) :=
  match Table.query t st key with
  | none => none
  | some none => some (false, st, im)
  | some (some row) =>
    let r := removeRowEntries t.name row key st im
    some (true, r.1.delete (t.name ++ ":" ++ key), r.2)

/-- Executable well-formedness of a manager state: every registered entry
sits under the dict key `"<table>:<field>"` recorded in the index itself
(as `IndexManager.create_index` guarantees). -/
def imWF (im : IndexManager) : Bool :=
  im.indexes.all (fun p => p.2.tableName ++ ":" ++ p.2.fieldName == p.1)

/-- Executable consistency of the registered indexes of table `t` with the
stored rows: entries live under `"<t.name>:<field>"`, bucket keys are
dict-unique, and a row id sitting in a bucket always points at a stored
row whose (non-`None`) value on that field stringifies to the bucket key.
This is the invariant that inserts and updates through the table maintain. -/
def indexInvB (t : TableCfg) (st : KVStore) (im : IndexManager) : Bool :=
  im.indexes.all (fun p =>
    (p.1 == t.name ++ ":" ++ p.2.fieldName) &&
    (p.2.buckets.map Prod.fst).Nodup &&
    p.2.buckets.all (fun b => b.2.all (fun id =>
      match Table.query t st id with
      | some (some row) =>
        match alistGet row p.2.fieldName with
        | some v => (!(v == FVal.fnone)) && (strF v == b.1)
        | none => false
      | _ => false)))

/-! ### Transaction layer (`transaction.py`) -/

structure Txn where
  changes : List (String × String)
  deletions : List String
  committed : Bool
  rolledBack : Bool
deriving DecidableEq

def Txn.new : Txn :=
  { changes := [], deletions := [], committed := false, rolledBack := false }

/-- `Transaction.set`: stage a set; fails once the transaction is terminal. -/
def Txn.set (t : Txn) (k v : String) : Except Unit Txn :=
  if t.committed || t.rolledBack then .error ()
  else .ok { t with changes := alistSet t.changes k v }

/-- `Transaction.delete`: stage a delete; evicts the key from the staged
changes and appends it to the staged deletions. -/
def Txn.delete (t : Txn) (k : String) : Except Unit Txn :=
  if t.committed || t.rolledBack then .error ()
  else .ok { t with changes := alistDel t.changes k,
                    deletions := t.deletions ++ [k] }

/-- `Transaction.get`: staged changes first, then staged deletions
(`none` = Python `None`), then fall through to the store's `get`. -/
def Txn.get (t : Txn) (st : KVStore) (k : String) : Option String :=
  match alistGet t.changes k with
  | some v => some v
  | none => if k ∈ t.deletions then none else some (st.get k)

/-- `Transaction.rollback`: error if already committed, else clear both
staged buffers and become rolled back.  The `Bool` is the raised flag. -/
def Txn.rollback (t : Txn) : Txn × Bool :=
  if t.committed then (t, true)
  else ({ t with changes := [], deletions := [], rolledBack := true }, false)

inductive StoreOp where
  | oset : String → String → StoreOp
  | odel : String → StoreOp
deriving DecidableEq

def StoreOp.apply (st : KVStore) : StoreOp → KVStore
  | .oset k v => st.set k v
  | .odel k => st.delete k

/-- The sequence of underlying-store operations `commit` performs: every
staged set (in staging order), then every staged delete. -/
def Txn.stagedOps (t : Txn) : List StoreOp :=
  t.changes.map (fun p => StoreOp.oset p.1 p.2) ++ t.deletions.map StoreOp.odel

/-- Run store operations in order; `failIdx = some i` means the i-th
operation raises (an underlying I/O failure), leaving the earlier
applications in place.  The `Bool` is the raised flag. -/
def applyOps : List StoreOp → KVStore → Option Nat → KVStore × Bool
  | [], st, _ => (st, false)
  | op :: rest, st, failIdx =>
    if failIdx = some 0 then (st, true)
    else applyOps rest (op.apply st) (failIdx.map (fun i => i - 1))

/-- `Transaction.commit`: error if terminal; otherwise apply every staged
set then every staged delete directly against the bound store; on a
mid-application failure, roll back the staged buffers and raise; become
committed only on full success.  The `Bool` is the raised flag. -/
def Txn.commit (t : Txn) (st : KVStore) (failIdx : Option Nat) :
    Txn × KVStore × Bool :=
  if t.committed || t.rolledBack then (t, st, true)
  else
    let r := applyOps t.stagedOps st failIdx
    if r.2 then ((t.rollback).1, r.1, true)
    else ({ t with committed := true }, r.1, false)

/-- The operations a transaction-scope body can stage. -/
inductive TxOp where
  | tset : String → String → TxOp
  | tdel : String → TxOp
deriving DecidableEq

def Txn.applyTxOp (t : Txn) (st : KVStore) : TxOp → Except Unit (Txn × KVStore)
  | .tset k v =>
    match t.set k v with
    | .ok t' => .ok (t', st)
    | .error e => .error e
  | .tdel k =>
    match t.delete k with
    | .ok t' => .ok (t', st)
    | .error e => .error e

/-- Run a scope body's staged operations in order, threading the
transaction and the (untouched-by-staging) underlying store.  The `Bool`
is the raised flag. -/
def runOps : List TxOp → Txn → KVStore → Txn × KVStore × Bool
  | [], t, st => (t, st, false)
  | op :: rest, t, st =>
    match t.applyTxOp st op with
    | .ok (t', st') => runOps rest t' st'
    | .error _ => (t, st, true)

/-- `TransactionManager.transaction`, the scoped entry point: create a
fresh transaction, run the body (modelled as its staged operations plus
whether it raises at the end), auto-commit on clean exit when the
transaction is not terminal, roll back and re-raise when the body raised.
Returns the final underlying store and whether the scope re-raised. -/
def runScope (st : KVStore) (ops : List TxOp) (bodyRaises : Bool)
    (failIdx : Option Nat) : KVStore × Bool :=
  let r := runOps ops Txn.new st
  let t := r.1
  let st1 := r.2.1
  if r.2.2 then (st1, true)
  else if bodyRaises then (st1, true)
  else if !t.committed && !t.rolledBack then
    let c := t.commit st1 failIdx
    (c.2.1, c.2.2)
  else (st1, false)

/-! ### Association-list lemmas -/

theorem alistGet_set_self {α : Type} (l : List (String × α)) (k : String) (v : α) :
    alistGet (alistSet l k v) k = some v := by
  induction l with
  | nil => simp [alistSet, alistGet]
  | cons p rest ih =>
    obtain ⟨k', v'⟩ := p
    by_cases h : k' = k
    · simp [alistSet, h, alistGet]
    · simp [alistSet, h, alistGet, ih]

theorem alistGet_set_other {α : Type} (l : List (String × α)) (k k' : String)
    (v : α) (h : k' ≠ k) : alistGet (alistSet l k v) k' = alistGet l k' := by
  have h2 : k ≠ k' := Ne.symm h
  induction l with
  | nil => simp [alistSet, alistGet, h2]
  | cons p rest ih =>
    obtain ⟨k1, v1⟩ := p
    by_cases h1 : k1 = k
    · subst h1
      simp [alistSet, alistGet, h2]
    · simp only [alistSet, if_neg h1, alistGet]
      by_cases h3 : k1 = k'
      · simp [alistGet, h3]
      · simp [alistGet, h3, ih]

theorem alistGet_del_self {α : Type} (l : List (String × α)) (k : String) :
    alistGet (alistDel l k) k = none := by
  induction l with
  | nil => simp [alistDel, alistGet]
  | cons p rest ih =>
    obtain ⟨k1, v1⟩ := p
    by_cases h1 : k1 = k
    · simpa [alistDel, h1] using ih
    · simpa [alistDel, alistGet, h1] using ih

theorem alistGet_del_other {α : Type} (l : List (String × α)) (k k' : String)
    (h : k' ≠ k) : alistGet (alistDel l k) k' = alistGet l k' := by
  induction l with
  | nil => simp [alistDel, alistGet]
  | cons p rest ih =>
    obtain ⟨k1, v1⟩ := p
    by_cases h1 : k1 = k
    · subst h1
      have h3 : k1 ≠ k' := Ne.symm h
      rw [alistDel, if_pos rfl, alistGet, if_neg h3]
      exact ih
    · by_cases h2 : k1 = k'
      · rw [alistDel, if_neg h1, alistGet, if_pos h2, alistGet, if_pos h2]
      · rw [alistDel, if_neg h1, alistGet, if_neg h2, alistGet, if_neg h2]
        exact ih

theorem alistGet_mem {α : Type} {l : List (String × α)} {k : String} {v : α}
    (h : alistGet l k = some v) : (k, v) ∈ l := by
  induction l with
  | nil => simp [alistGet] at h
  | cons p rest ih =>
    obtain ⟨k1, v1⟩ := p
    by_cases h1 : k1 = k
    · rw [alistGet, if_pos h1] at h
      obtain rfl : v1 = v := by exact Option.some.inj h
      subst h1
      exact List.mem_cons_self _ _
    · rw [alistGet, if_neg h1] at h
      exact List.mem_cons_of_mem _ (ih h)

theorem alistGet_none_not_mem {α : Type} {l : List (String × α)} {k : String}
    {v : α} (h : alistGet l k = none) : (k, v) ∉ l := by
  induction l with
  | nil => simp
  | cons p rest ih =>
    obtain ⟨k1, v1⟩ := p
    by_cases h1 : k1 = k
    · rw [alistGet, if_pos h1] at h
      exact absurd h (by simp)
    · rw [alistGet, if_neg h1] at h
      intro hm
      rcases List.mem_cons.mp hm with hm | hm
      · exact h1 (congrArg Prod.fst hm.symm)
      · exact ih h hm

theorem mem_alistSet {α : Type} {l : List (String × α)} {k k' : String}
    {v v' : α} (h : (k', v') ∈ alistSet l k v) :
    (k', v') = (k, v) ∨ (k', v') ∈ l := by
  induction l with
  | nil =>
    rw [alistSet] at h
    rcases List.mem_cons.mp h with h | h
    · exact Or.inl h
    · simp at h
  | cons p rest ih =>
    obtain ⟨k1, v1⟩ := p
    by_cases h1 : k1 = k
    · rw [alistSet, if_pos h1] at h
      rcases List.mem_cons.mp h with h | h
      · exact Or.inl h
      · exact Or.inr (List.mem_cons_of_mem _ h)
    · rw [alistSet, if_neg h1] at h
      rcases List.mem_cons.mp h with h | h
      · exact Or.inr (h ▸ List.mem_cons_self _ _)
      · rcases ih h with h2 | h2
        · exact Or.inl h2
        · exact Or.inr (List.mem_cons_of_mem _ h2)

theorem alistGet_mem_keys {α : Type} {l : List (String × α)} {k : String} {v : α}
    (h : alistGet l k = some v) : k ∈ l.map Prod.fst :=
  List.mem_map.mpr ⟨(k, v), alistGet_mem h, rfl⟩

theorem alistSet_keys_of_mem {α : Type} {l : List (String × α)} {k : String}
    (v : α) (h : k ∈ l.map Prod.fst) :
    (alistSet l k v).map Prod.fst = l.map Prod.fst := by
  induction l with
  | nil => simp at h
  | cons p rest ih =>
    obtain ⟨k1, v1⟩ := p
    by_cases h1 : k1 = k
    · simp [alistSet, h1]
    · rw [alistSet, if_neg h1]
      rw [List.map_cons] at h
      rcases List.mem_cons.mp h with h | h
      · exact absurd h.symm h1
      · simp [ih h]

theorem mem_alistSet_cases {α : Type} {l : List (String × α)} {k k' : String}
    {v v' : α} (hnd : (l.map Prod.fst).Nodup) (h : (k', v') ∈ alistSet l k v) :
    (k' = k ∧ v' = v) ∨ (k' ≠ k ∧ (k', v') ∈ l) := by
  induction l with
  | nil =>
    rw [alistSet] at h
    rcases List.mem_cons.mp h with h | h
    · exact Or.inl ⟨congrArg Prod.fst h, congrArg Prod.snd h⟩
    · simp at h
  | cons p rest ih =>
    obtain ⟨k1, v1⟩ := p
    rw [List.map_cons, List.nodup_cons] at hnd
    by_cases h1 : k1 = k
    · subst h1
      rw [alistSet, if_pos rfl] at h
      rcases List.mem_cons.mp h with h | h
      · exact Or.inl ⟨congrArg Prod.fst h, congrArg Prod.snd h⟩
      · refine Or.inr ⟨?_, List.mem_cons_of_mem _ h⟩
        intro he
        apply hnd.1
        rw [← he]
        exact List.mem_map.mpr ⟨(k', v'), h, rfl⟩
    · rw [alistSet, if_neg h1] at h
      rcases List.mem_cons.mp h with h | h
      · have hk : k' = k1 := congrArg Prod.fst h
        refine Or.inr ⟨fun he => h1 (hk ▸ he), ?_⟩
        rw [h]
        exact List.mem_cons_self _ _
      · rcases ih hnd.2 h with h2 | h2
        · exact Or.inl h2
        · exact Or.inr ⟨h2.1, List.mem_cons_of_mem _ h2.2⟩

theorem alistGet_of_mem_nodup {α : Type} {l : List (String × α)} {k : String}
    {v : α} (hnd : (l.map Prod.fst).Nodup) (h : (k, v) ∈ l) :
    alistGet l k = some v := by
  induction l with
  | nil => simp at h
  | cons p rest ih =>
    obtain ⟨k1, v1⟩ := p
    rw [List.map_cons, List.nodup_cons] at hnd
    rcases List.mem_cons.mp h with h | h
    · have hk : k = k1 := congrArg Prod.fst h
      have hv : v = v1 := congrArg Prod.snd h
      rw [alistGet, if_pos hk.symm, hv]
    · have hk1 : k1 ≠ k := by
        intro he
        subst he
        exact hnd.1 (List.mem_map.mpr ⟨(k1, v), h, rfl⟩)
      rw [alistGet, if_neg hk1]
      exact ih hnd.2 h

/-! ### Decimal printing and number parsing -/

theorem natCharsGo_eq (fuel : Nat) :
    ∀ (n : Nat) (acc : List Char), n ≤ fuel →
      natCharsGo fuel n acc = ((Nat.digits 10 n).reverse.map Nat.digitChar) ++ acc := by
  induction fuel with
  | zero =>
    intro n acc h
    have hn : n = 0 := by omega
    subst hn
    simp [natCharsGo]
  | succ fuel ih =>
    intro n acc h
    by_cases hn : n = 0
    · subst hn
      simp [natCharsGo]
    · rw [natCharsGo, if_neg hn]
      have hdiv : n / 10 ≤ fuel := by
        have := Nat.div_lt_self (Nat.pos_of_ne_zero hn) (by norm_num : 1 < 10)
        omega
      rw [ih _ _ hdiv]
      rw [Nat.digits_def' (by norm_num : 1 < 10) (Nat.pos_of_ne_zero hn)]
      simp [List.reverse_cons, List.map_append]

theorem natChars_eq (n : Nat) :
    natChars n =
      if n = 0 then ['0'] else ((Nat.digits 10 n).reverse.map Nat.digitChar) := by
  by_cases h : n = 0
  · simp [natChars, h]
  · simp [natChars, h, natCharsGo_eq n n [] le_rfl]

theorem digitVal_digitChar {d : Nat} (h : d < 10) :
    digitVal (Nat.digitChar d) = d := by
  interval_cases d <;> rfl

theorem isDig_digitChar {d : Nat} (h : d < 10) :
    isDig (Nat.digitChar d) = true := by
  interval_cases d <;> rfl

theorem natChars_all_dig (n : Nat) : ∀ c ∈ natChars n, isDig c = true := by
  rw [natChars_eq]
  by_cases h : n = 0
  · rw [if_pos h]
    intro c hc
    rw [List.mem_singleton.mp hc]
    rfl
  · rw [if_neg h]
    intro c hc
    obtain ⟨d, hd, rfl⟩ := List.mem_map.mp hc
    exact isDig_digitChar (Nat.digits_lt_base (by norm_num) (List.mem_reverse.mp hd))

theorem natChars_ne_nil (n : Nat) : natChars n ≠ [] := by
  rw [natChars_eq]
  by_cases h : n = 0
  · simp [h]
  · rw [if_neg h]
    have hd : Nat.digits 10 n ≠ [] := Nat.digits_ne_nil_iff_ne_zero.mpr h
    simp [hd]

theorem natChars_foldl (n : Nat) :
    (natChars n).foldl (fun a c => a * 10 + digitVal c) 0 = n := by
  rw [natChars_eq]
  by_cases h : n = 0
  · rw [if_pos h, h]
    rfl
  · rw [if_neg h, List.map_reverse, List.foldl_reverse, List.foldr_map]
    have key : ∀ L : List Nat, (∀ d ∈ L, d < 10) →
        L.foldr (fun d a => a * 10 + digitVal (Nat.digitChar d)) 0 =
          Nat.ofDigits 10 L := by
      intro L
      induction L with
      | nil => simp [Nat.ofDigits]
      | cons d L ihL =>
        intro hL
        rw [List.foldr_cons, ihL (fun d' h' => hL d' (List.mem_cons_of_mem _ h')),
          Nat.ofDigits_cons, digitVal_digitChar (hL d (List.mem_cons_self _ _))]
        ring
    rw [key _ (fun d hd => Nat.digits_lt_base (by norm_num) hd), Nat.ofDigits_digits]

theorem parseNatGo_append (ds : List Char) (rest : List Char)
    (hds : ∀ c ∈ ds, isDig c = true) (hrest : notDigStart rest) (acc : Nat) :
    parseNatGo (ds ++ rest) acc =
      (ds.foldl (fun a c => a * 10 + digitVal c) acc, rest) := by
  induction ds generalizing acc with
  | nil =>
    simp only [List.nil_append, List.foldl_nil]
    cases rest with
    | nil => rfl
    | cons c r =>
      have hc := hrest c rfl
      rw [parseNatGo, if_neg (by rw [hc]; exact Bool.false_ne_true)]
  | cons c ds ih =>
    have hc := hds c (List.mem_cons_self _ _)
    rw [List.cons_append, parseNatGo, if_pos hc, List.foldl_cons]
    exact ih (fun c' h' => hds c' (List.mem_cons_of_mem _ h')) _

theorem parseNatCh_enc (n : Nat) (rest : List Char) (hrest : notDigStart rest) :
    parseNatCh (natChars n ++ rest) = some (n, rest) := by
  obtain ⟨c0, cs, hc⟩ : ∃ c0 cs, natChars n = c0 :: cs := by
    cases h : natChars n with
    | nil => exact absurd h (natChars_ne_nil n)
    | cons a l => exact ⟨a, l, rfl⟩
  have hall := natChars_all_dig n
  rw [hc] at hall
  have hc0 := hall c0 (List.mem_cons_self _ _)
  rw [hc, List.cons_append, parseNatCh, if_pos hc0,
    parseNatGo_append cs rest (fun c h => hall c (List.mem_cons_of_mem _ h)) hrest]
  have hf := natChars_foldl n
  rw [hc, List.foldl_cons] at hf
  simp only [Nat.zero_mul, Nat.zero_add] at hf
  rw [hf]

theorem isDig_char_facts {c : Char} (h : isDig c = true) :
    c ≠ '"' ∧ c ≠ 'n' ∧ c ≠ '-' ∧ c ≠ '\x7b' := by
  rw [isDig, Bool.and_eq_true, decide_eq_true_eq, decide_eq_true_eq] at h
  refine ⟨?_, ?_, ?_, ?_⟩ <;>
    · intro he
      rw [he] at h
      simp at h

theorem parseIntCh_enc (i : Int) (rest : List Char) (hrest : notDigStart rest) :
    parseIntCh (intChars i ++ rest) = some (i, rest) := by
  by_cases hneg : i < 0
  · rw [intChars, if_pos hneg, List.cons_append, parseIntCh, if_pos rfl,
      parseNatCh_enc _ _ hrest]
    simp only [Option.map]
    congr 2
    omega
  · rw [intChars, if_neg hneg]
    obtain ⟨c0, cs, hc⟩ : ∃ c0 cs, natChars i.natAbs = c0 :: cs := by
      cases h : natChars i.natAbs with
      | nil => exact absurd h (natChars_ne_nil _)
      | cons a l => exact ⟨a, l, rfl⟩
    have hc0 : isDig c0 = true := by
      have := natChars_all_dig i.natAbs
      rw [hc] at this
      exact this c0 (List.mem_cons_self _ _)
    have hc0ne : c0 ≠ '-' := (isDig_char_facts hc0).2.2.1
    rw [hc, List.cons_append, parseIntCh, if_neg hc0ne, ← List.cons_append, ← hc,
      parseNatCh_enc _ _ hrest]
    simp only [Option.map]
    congr 2
    omega

/-! ### JSON round-trip -/

theorem parseStr_cons (c : Char) (rest : List Char) :
    parseStr (c :: rest) =
      if c = '"' then some ([], rest)
      else if c = '\\' then
        match rest with
        | [] => none
        | c2 :: rest2 =>
          if c2 = '"' ∨ c2 = '\\' then
            (parseStr rest2).map (fun p => (c2 :: p.1, p.2))
          else none
      else (parseStr rest).map (fun p => (c :: p.1, p.2)) := by
  rw [parseStr.eq_def]

theorem parseStr_escape (s : List Char) (rest : List Char) :
    parseStr (escape s ++ '"' :: rest) = some (s, rest) := by
  induction s with
  | nil =>
    simp only [escape, List.map_nil, List.flatten_nil, List.nil_append]
    rw [parseStr_cons, if_pos rfl]
  | cons c cs ih =>
    by_cases h1 : c = '"'
    · subst h1
      have he : escape ('"' :: cs) ++ '"' :: rest =
          '\\' :: '"' :: (escape cs ++ '"' :: rest) := by
        simp [escape, escChar]
      rw [he]
      show (parseStr (escape cs ++ '"' :: rest)).map (fun p => ('"' :: p.1, p.2)) =
        some ('"' :: cs, rest)
      rw [ih]
      rfl
    · by_cases h2 : c = '\\'
      · subst h2
        have he : escape ('\\' :: cs) ++ '"' :: rest =
            '\\' :: '\\' :: (escape cs ++ '"' :: rest) := by
          simp [escape, escChar]
        rw [he]
        show (parseStr (escape cs ++ '"' :: rest)).map (fun p => ('\\' :: p.1, p.2)) =
          some ('\\' :: cs, rest)
        rw [ih]
        rfl
      · have he : escape (c :: cs) ++ '"' :: rest =
            c :: (escape cs ++ '"' :: rest) := by
          simp [escape, escChar, h1, h2]
        rw [he, parseStr_cons, if_neg h1, if_neg h2, ih]
        rfl

theorem parseVal_cons (c : Char) (rest : List Char) :
    parseVal (c :: rest) =
      if c = '"' then
        (parseStr rest).map (fun p => (FVal.fstr (String.mk p.1), p.2))
      else if c = 'n' then
        if rest.take 3 = ['u', 'l', 'l'] then some (FVal.fnone, rest.drop 3)
        else none
      else (parseIntCh (c :: rest)).map (fun p => (FVal.fint p.1, p.2)) := by
  rw [parseVal.eq_def]

theorem parseVal_enc (v : FVal) (rest : List Char) (hrest : notDigStart rest) :
    parseVal (encVal v ++ rest) = some (v, rest) := by
  cases v with
  | fstr s =>
    have he : encVal (FVal.fstr s) ++ rest = '"' :: (escape s.data ++ '"' :: rest) := by
      simp [encVal]
    rw [he]
    show (parseStr (escape s.data ++ '"' :: rest)).map
      (fun p => (FVal.fstr (String.mk p.1), p.2)) = some (FVal.fstr s, rest)
    rw [parseStr_escape]
    rfl
  | fnone =>
    have he : encVal FVal.fnone ++ rest = 'n' :: ('u' :: 'l' :: 'l' :: rest) := by
      simp [encVal]
    rw [he]
    rfl
  | fint i =>
    obtain ⟨c0, cs, hc⟩ : ∃ c0 cs, intChars i = c0 :: cs := by
      rw [intChars]
      by_cases hneg : i < 0
      · rw [if_pos hneg]
        exact ⟨_, _, rfl⟩
      · rw [if_neg hneg]
        cases h : natChars i.natAbs with
        | nil => exact absurd h (natChars_ne_nil _)
        | cons a l => exact ⟨a, l, rfl⟩
    have hc0 : c0 ≠ '"' ∧ c0 ≠ 'n' := by
      by_cases hneg : i < 0
      · rw [intChars, if_pos hneg] at hc
        have h0 : c0 = '-' := (List.cons.injEq .. ▸ hc).1.symm
        rw [h0]
        exact ⟨by decide, by decide⟩
      · rw [intChars, if_neg hneg] at hc
        have hmem : c0 ∈ natChars i.natAbs := by
          rw [hc]
          exact List.mem_cons_self _ _
        have hd := natChars_all_dig i.natAbs c0 hmem
        exact ⟨(isDig_char_facts hd).1, (isDig_char_facts hd).2.1⟩
    have he : encVal (FVal.fint i) ++ rest = c0 :: (cs ++ rest) := by
      simp [encVal, hc]
    rw [he, parseVal_cons, if_neg hc0.1, if_neg hc0.2, ← List.cons_append, ← hc,
      parseIntCh_enc i rest hrest]
    rfl

theorem parsePair_enc (p : String × FVal) (rest : List Char)
    (hrest : notDigStart rest) :
    parsePair (encPair p ++ rest) = some (p, rest) := by
  obtain ⟨k, v⟩ := p
  have he : encPair (k, v) ++ rest =
      '"' :: (escape k.data ++ '"' :: (':' :: ' ' :: (encVal v ++ rest))) := by
    simp [encPair]
  rw [he, parsePair, parseStr_escape]
  simp only
  rw [parseVal_enc v rest hrest]

theorem parseFieldsF_enc (ps : RowData) :
    ∀ (p : String × FVal) (fuel : Nat), ps.length < fuel →
      parseFieldsF fuel (encFieldsAux (p :: ps)) = some (p :: ps, []) := by
  induction ps with
  | nil =>
    intro p fuel hf
    obtain ⟨f, rfl⟩ : ∃ f, fuel = f + 1 := ⟨fuel - 1, by omega⟩
    show parseFieldsF (f + 1) (encPair p ++ ['\x7d']) = _
    rw [parseFieldsF, parsePair_enc p ['\x7d'] (by intro c hc; cases hc; rfl)]
    rfl
  | cons q qs ih =>
    intro p fuel hf
    obtain ⟨f, rfl⟩ : ∃ f, fuel = f + 1 := ⟨fuel - 1, by omega⟩
    show parseFieldsF (f + 1) (encPair p ++ ',' :: ' ' :: encFieldsAux (q :: qs)) = _
    rw [parseFieldsF, parsePair_enc p (',' :: ' ' :: encFieldsAux (q :: qs))
      (by intro c hc; cases hc; rfl)]
    simp only
    rw [ih q f (by simpa using Nat.lt_of_succ_lt_succ hf)]

theorem encFieldsAux_len (d : RowData) : d.length ≤ (encFieldsAux d).length := by
  induction d with
  | nil => simp [encFieldsAux]
  | cons p ps ih =>
    cases ps with
    | nil =>
      show 1 ≤ (encPair p ++ ['\x7d']).length
      simp
    | cons q qs =>
      show (q :: qs).length + 1 ≤
        (encPair p ++ ',' :: ' ' :: encFieldsAux (q :: qs)).length
      simp only [List.length_append, List.length_cons] at ih ⊢
      omega

theorem encFieldsAux_cons_head (p : String × FVal) (ps : RowData) :
    ∃ tl, encFieldsAux (p :: ps) = '"' :: tl := by
  cases ps with
  | nil =>
    refine ⟨escape p.1.data ++ '"' :: ':' :: ' ' :: (encVal p.2 ++ ['\x7d']), ?_⟩
    show encPair p ++ ['\x7d'] = _
    simp [encPair]
  | cons q qs =>
    refine ⟨escape p.1.data ++
      '"' :: ':' :: ' ' :: (encVal p.2 ++ ',' :: ' ' :: encFieldsAux (q :: qs)), ?_⟩
    show encPair p ++ ',' :: ' ' :: encFieldsAux (q :: qs) = _
    simp [encPair]

theorem jsonRoundTrip (d : RowData) : jsonLoads (jsonDumps d) = some d := by
  rw [jsonDumps, jsonLoads]
  show parseRow (encodeRow d) = some d
  cases d with
  | nil => rfl
  | cons p ps =>
    rw [encodeRow]
    obtain ⟨tl, htl⟩ := encFieldsAux_cons_head p ps
    have hlen : ps.length < (encFieldsAux (p :: ps)).length := by
      have := encFieldsAux_len (p :: ps)
      simp only [List.length_cons] at this
      omega
    rw [htl]
    show (match parseFieldsF ('"' :: tl).length ('"' :: tl) with
      | some (fs, rem) => if rem.isEmpty then some fs else none
      | none => none) = some (p :: ps)
    rw [← htl, parseFieldsF_enc ps p _ hlen]
    rfl

theorem hasKeyMarker_encodeRow (d : RowData) : hasKeyMarker (encodeRow d) = false :=
  rfl

theorem hasKeyMarker_sentinel (k dbn : String) :
    hasKeyMarker ("Key " ++ k ++ " not found in " ++ dbn).data = true := by
  have : ("Key " ++ k ++ " not found in " ++ dbn).data =
      'K' :: 'e' :: 'y' :: ' ' :: (k.data ++ (" not found in " ++ dbn).data) := by
    simp [String.data_append]
  rw [this]
  rfl

/-! ### Store and query lemmas -/

theorem lookup_set_self (st : KVStore) (k v : String) :
    (st.set k v).lookup k = some v :=
  alistGet_set_self st.db k v

theorem lookup_set_other (st : KVStore) (k k' v : String) (h : k' ≠ k) :
    (st.set k v).lookup k' = st.lookup k' :=
  alistGet_set_other st.db k k' v h

theorem lookup_del_self (st : KVStore) (k : String) :
    (st.delete k).lookup k = none :=
  alistGet_del_self st.db k

theorem lookup_del_other (st : KVStore) (k k' : String) (h : k' ≠ k) :
    (st.delete k).lookup k' = st.lookup k' :=
  alistGet_del_other st.db k k' h

theorem get_eq_of_lookup (st : KVStore) (k v : String) (h : st.lookup k = some v) :
    st.get k = v := by
  rw [KVStore.get]
  rw [KVStore.lookup] at h
  rw [h]

theorem get_sentinel (st : KVStore) (k : String) (h : st.lookup k = none) :
    st.get k = "Key " ++ k ++ " not found in " ++ st.dbName := by
  rw [KVStore.get]
  rw [KVStore.lookup] at h
  rw [h]

theorem query_stored (t : TableCfg) (st : KVStore) (key : String) (vd : RowData)
    (h : st.lookup (t.name ++ ":" ++ key) = some (jsonDumps vd)) :
    Table.query t st key = some (some vd) := by
  simp only [Table.query]
  rw [get_eq_of_lookup _ _ _ h]
  have h1 : hasKeyMarker (jsonDumps vd).data = false := hasKeyMarker_encodeRow vd
  rw [h1]
  have h2 : parseRow (jsonDumps vd).data = some vd := jsonRoundTrip vd
  simp only [Bool.false_eq_true, if_false, h2]

theorem query_absent (t : TableCfg) (st : KVStore) (key : String)
    (h : st.lookup (t.name ++ ":" ++ key) = none) :
    Table.query t st key = some none := by
  simp only [Table.query]
  rw [get_sentinel _ _ h, hasKeyMarker_sentinel]
  simp

/-! ### Index-manager helper lemmas -/

theorem imWF_mem {im : IndexManager} (him : imWF im = true) {k : String}
    {idx : Index} (h : (k, idx) ∈ im.indexes) :
    idx.tableName ++ ":" ++ idx.fieldName = k := by
  rw [imWF, List.all_eq_true] at him
  have := him (k, idx) h
  simpa using this

theorem imWF_setIndex {im : IndexManager} (him : imWF im = true) {k : String}
    {idx idx2 : Index} (hget : alistGet im.indexes k = some idx)
    (h2 : idx2.tableName = idx.tableName) (h3 : idx2.fieldName = idx.fieldName) :
    imWF (im.setIndex k idx2) = true := by
  rw [imWF, List.all_eq_true]
  intro p hp
  obtain ⟨pk, pv⟩ := p
  rcases mem_alistSet hp with hp | hp
  · have hw := imWF_mem him (alistGet_mem hget)
    have hk : pk = k := congrArg Prod.fst hp
    have hv : pv = idx2 := congrArg Prod.snd hp
    subst hk
    subst hv
    rw [h2, h3]
    simp [hw]
  · have := imWF_mem him hp
    simp [this]

theorem addEntry_fields (idx : Index) (st : KVStore) (rowKey : String) (v : FVal) :
    (idx.addEntry st rowKey v).1.tableName = idx.tableName ∧
    (idx.addEntry st rowKey v).1.fieldName = idx.fieldName := by
  rw [Index.addEntry]
  by_cases h : v = FVal.fnone
  · simp [h]
  · simp [h]

theorem removeEntry_fields (idx : Index) (st : KVStore) (rowKey : String) (v : FVal) :
    (idx.removeEntry st rowKey v).1.tableName = idx.tableName ∧
    (idx.removeEntry st rowKey v).1.fieldName = idx.fieldName := by
  rw [Index.removeEntry]
  by_cases h : v = FVal.fnone
  · simp [h]
  · cases hb : alistGet idx.buckets (strF v) with
    | none => simp [h, hb]
    | some ids => simp [h, hb]

theorem updateEntry_fields (idx : Index) (st : KVStore) (rowKey : String)
    (oldV newV : FVal) :
    (idx.updateEntry st rowKey oldV newV).1.tableName = idx.tableName ∧
    (idx.updateEntry st rowKey oldV newV).1.fieldName = idx.fieldName := by
  rw [Index.updateEntry]
  have h1 := removeEntry_fields idx st rowKey oldV
  have h2 := addEntry_fields (idx.removeEntry st rowKey oldV).1
    (idx.removeEntry st rowKey oldV).2 rowKey newV
  exact ⟨h2.1.trans h1.1, h2.2.trans h1.2⟩

theorem addEntry_store (idx : Index) (st : KVStore) (rowKey : String) (v : FVal)
    (target : String) (h : idx.indexKey ≠ target) :
    ((idx.addEntry st rowKey v).2).lookup target = st.lookup target := by
  rw [Index.addEntry]
  by_cases hv : v = FVal.fnone
  · simp [hv]
  · simp only [hv, if_false]
    rw [Index.saveIndex]
    have hkey : ({ idx with buckets := bucketAdd idx.buckets (strF v) rowKey } :
        Index).indexKey = idx.indexKey := rfl
    exact lookup_set_other _ _ _ _ (by rw [hkey]; exact Ne.symm h)

/-! ### Transaction lemmas -/

theorem applyOps_none (ops : List StoreOp) :
    ∀ st : KVStore, applyOps ops st none =
      (ops.foldl (fun s op => op.apply s) st, false) := by
  induction ops with
  | nil => intro st; rfl
  | cons op rest ih =>
    intro st
    rw [applyOps, if_neg (by simp), List.foldl_cons]
    simpa using ih (op.apply st)

theorem applyOps_fail (ops : List StoreOp) :
    ∀ (i : Nat) (st : KVStore), i < ops.length →
      applyOps ops st (some i) = ((applyOps (ops.take i) st none).1, true) := by
  induction ops with
  | nil => intro i st h; simp at h
  | cons op rest ih =>
    intro i st h
    cases i with
    | zero => rw [applyOps, if_pos rfl]; rfl
    | succ i =>
      rw [applyOps, if_neg (by simp), List.take_succ_cons]
      have h2 : (Option.map (fun i => i - 1) (some (i + 1))) = some i := by simp
      rw [h2, ih i _ (by simpa using Nat.lt_of_succ_lt_succ h)]
      rw [applyOps, if_neg (by simp)]
      simp

theorem runOps_store (ops : List TxOp) :
    ∀ (t : Txn) (st : KVStore), (runOps ops t st).2.1 = st := by
  induction ops with
  | nil => intro t st; rfl
  | cons op rest ih =>
    intro t st
    rw [runOps]
    cases op with
    | tset k v =>
      rw [Txn.applyTxOp, Txn.set]
      by_cases h : t.committed || t.rolledBack
      · rw [if_pos h]
      · rw [if_neg h]
        exact ih _ _
    | tdel k =>
      rw [Txn.applyTxOp, Txn.delete]
      by_cases h : t.committed || t.rolledBack
      · rw [if_pos h]
      · rw [if_neg h]
        exact ih _ _

theorem lookup_foldl_del_none (ds : List String) :
    ∀ (st : KVStore) (k : String), st.lookup k = none →
      (ds.foldl KVStore.delete st).lookup k = none := by
  induction ds with
  | nil => intro st k h; exact h
  | cons d ds ih =>
    intro st k h
    rw [List.foldl_cons]
    apply ih
    by_cases hd : k = d
    · subst hd
      exact lookup_del_self _ _
    · rw [lookup_del_other _ _ _ hd]
      exact h

theorem lookup_foldl_del_mem (ds : List String) :
    ∀ (st : KVStore) (k : String), k ∈ ds →
      (ds.foldl KVStore.delete st).lookup k = none := by
  induction ds with
  | nil => intro st k h; simp at h
  | cons d ds ih =>
    intro st k h
    rw [List.foldl_cons]
    rcases List.mem_cons.mp h with h | h
    · subst h
      exact lookup_foldl_del_none ds _ _ (lookup_del_self _ _)
    · exact ih _ _ h

theorem stagedOps_foldl (t : Txn) (st : KVStore) :
    t.stagedOps.foldl (fun s op => op.apply s) st =
      t.deletions.foldl KVStore.delete
        (t.changes.foldl (fun s p => s.set p.1 p.2) st) := by
  rw [Txn.stagedOps, List.foldl_append, List.foldl_map, List.foldl_map]
  rfl

theorem commit_success (t : Txn) (st : KVStore) (hc : t.committed = false)
    (hr : t.rolledBack = false) :
    t.commit st none =
      ({ t with committed := true },
        t.deletions.foldl KVStore.delete
          (t.changes.foldl (fun s p => s.set p.1 p.2) st), false) := by
  rw [Txn.commit, if_neg (by rw [hc, hr]; simp)]
  simp only [applyOps_none, stagedOps_foldl]
  rfl

theorem commit_fail (t : Txn) (st : KVStore) (i : Nat) (hc : t.committed = false)
    (hr : t.rolledBack = false) (hi : i < t.stagedOps.length) :
    t.commit st (some i) =
      (⟨[], [], false, true⟩, (applyOps (t.stagedOps.take i) st none).1, true) := by
  rw [Txn.commit, if_neg (by rw [hc, hr]; simp)]
  rw [applyOps_fail t.stagedOps i st hi]
  show (t.rollback.1, (applyOps (t.stagedOps.take i) st none).1, true) = _
  rw [Txn.rollback, if_neg (by rw [hc]; exact Bool.false_ne_true)]
  simp [hc]

/-! ### Index-removal lemmas (for the delete-cleanup claim) -/

theorem mem_alistDel {α : Type} {l : List (String × α)} {k k' : String} {v' : α}
    (h : (k', v') ∈ alistDel l k) : k' ≠ k ∧ (k', v') ∈ l := by
  induction l with
  | nil => simp [alistDel] at h
  | cons p rest ih =>
    obtain ⟨k1, v1⟩ := p
    by_cases h1 : k1 = k
    · rw [alistDel, if_pos h1] at h
      obtain ⟨hne, hm⟩ := ih h
      exact ⟨hne, List.mem_cons_of_mem _ hm⟩
    · rw [alistDel, if_neg h1] at h
      rcases List.mem_cons.mp h with h | h
      · have : k' = k1 := congrArg Prod.fst h
        refine ⟨this ▸ h1, ?_⟩
        rw [h]
        exact List.mem_cons_self _ _
      · obtain ⟨hne, hm⟩ := ih h
        exact ⟨hne, List.mem_cons_of_mem _ hm⟩

theorem alistDel_keys_sublist {α : Type} (l : List (String × α)) (k : String) :
    ((alistDel l k).map Prod.fst).Sublist (l.map Prod.fst) := by
  induction l with
  | nil => simp [alistDel]
  | cons p rest ih =>
    obtain ⟨k1, v1⟩ := p
    by_cases h1 : k1 = k
    · rw [alistDel, if_pos h1]
      exact List.Sublist.cons _ ih
    · rw [alistDel, if_neg h1]
      exact List.Sublist.cons₂ _ ih

theorem removeEntry_nodup (idx : Index) (st : KVStore) (rowKey : String) (v : FVal)
    (hnd : (idx.buckets.map Prod.fst).Nodup) :
    (((idx.removeEntry st rowKey v).1).buckets.map Prod.fst).Nodup := by
  rw [Index.removeEntry]
  by_cases hv : v = FVal.fnone
  · simpa [hv] using hnd
  · rw [if_neg hv]
    cases hb : alistGet idx.buckets (strF v) with
    | none => simpa using hnd
    | some ids =>
      show (List.map Prod.fst
        (if (ids.filter (fun x => x != rowKey)).isEmpty = true then
          alistDel idx.buckets (strF v)
        else alistSet idx.buckets (strF v)
          (ids.filter (fun x => x != rowKey)))).Nodup
      by_cases he : (ids.filter (fun x => x != rowKey)).isEmpty = true
      · rw [if_pos he]
        exact (alistDel_keys_sublist _ _).nodup hnd
      · rw [if_neg he, alistSet_keys_of_mem _ (alistGet_mem_keys hb)]
        exact hnd

theorem removeEntry_buckets_rev (idx : Index) (st : KVStore) (rowKey : String)
    (v : FVal) {sv : String} {ids : List String}
    (hnd : (idx.buckets.map Prod.fst).Nodup)
    (h : (sv, ids) ∈ ((idx.removeEntry st rowKey v).1).buckets)
    (hk : rowKey ∈ ids) :
    (sv, ids) ∈ idx.buckets ∧ (v ≠ FVal.fnone → sv ≠ strF v) := by
  rw [Index.removeEntry] at h
  by_cases hv : v = FVal.fnone
  · rw [if_pos hv] at h
    exact ⟨h, fun hne => absurd hv hne⟩
  · rw [if_neg hv] at h
    cases hb : alistGet idx.buckets (strF v) with
    | none =>
      rw [hb] at h
      refine ⟨h, fun _ hsv => ?_⟩
      exact alistGet_none_not_mem (hsv ▸ hb) h
    | some ids0 =>
      rw [hb] at h
      simp only at h
      by_cases he : ((ids0.filter (fun x => x != rowKey)).isEmpty : Bool)
      · rw [if_pos he] at h
        obtain ⟨hne, hm⟩ := mem_alistDel h
        exact ⟨hm, fun _ => hne⟩
      · rw [if_neg he] at h
        rcases mem_alistSet_cases hnd h with ⟨hsv, hids⟩ | ⟨hne, hm⟩
        · exfalso
          rw [hids] at hk
          have := (List.mem_filter.mp hk).2
          simp at this
        · exact ⟨hm, fun _ => hne⟩

/-- Unpack the executable index invariant. -/
theorem indexInvB_spec {t : TableCfg} {st : KVStore} {im : IndexManager}
    (h : indexInvB t st im = true) :
    ∀ k idx, (k, idx) ∈ im.indexes →
      k = t.name ++ ":" ++ idx.fieldName ∧
      (idx.buckets.map Prod.fst).Nodup ∧
      ∀ sv ids, (sv, ids) ∈ idx.buckets → ∀ id ∈ ids,
        ∃ row v, Table.query t st id = some (some row) ∧
          alistGet row idx.fieldName = some v ∧ v ≠ FVal.fnone ∧ strF v = sv := by
  rw [indexInvB, List.all_eq_true] at h
  intro k idx hm
  have hh := h (k, idx) hm
  simp only [Bool.and_eq_true, beq_iff_eq, List.all_eq_true, decide_eq_true_eq] at hh
  obtain ⟨⟨h1, h2⟩, h3⟩ := hh
  refine ⟨h1, h2, ?_⟩
  intro sv ids hb id hid
  have hv := h3 (sv, ids) hb id hid
  cases hq : Table.query t st id with
  | none => rw [hq] at hv; simp at hv
  | some o =>
    cases o with
    | none => rw [hq] at hv; simp at hv
    | some row =>
      rw [hq] at hv
      simp only at hv
      cases hgv : alistGet row idx.fieldName with
      | none => rw [hgv] at hv; simp at hv
      | some v =>
        rw [hgv] at hv
        simp only [Bool.and_eq_true, Bool.not_eq_true', beq_eq_false_iff_ne,
          beq_iff_eq] at hv
        exact ⟨row, v, rfl, hgv, hv.1, hv.2⟩

/-- Core induction for delete's index cleanup: if every occurrence of
`rowKey` in a registered bucket is justified by a field in `fields`
(with matching stringified value), then after removing the entries for
all of `fields`, `rowKey` occurs in no bucket. -/
theorem removeRowEntries_clears (tname rowKey : String) :
    ∀ (fields : RowData) (st : KVStore) (im : IndexManager),
      (im.indexes.map Prod.fst).Nodup →
      (∀ k idx, (k, idx) ∈ im.indexes → (idx.buckets.map Prod.fst).Nodup) →
      (∀ k idx sv ids, (k, idx) ∈ im.indexes → (sv, ids) ∈ idx.buckets →
        rowKey ∈ ids →
        k = tname ++ ":" ++ idx.fieldName ∧
          ∃ v, (idx.fieldName, v) ∈ fields ∧ v ≠ FVal.fnone ∧ strF v = sv) →
      ∀ k idx sv ids,
        (k, idx) ∈ ((removeRowEntries tname fields rowKey st im).2).indexes →
        (sv, ids) ∈ idx.buckets → rowKey ∉ ids := by
  intro fields
  induction fields with
  | nil =>
    intro st im _ _ hQ k idx sv ids hmem hb hk
    obtain ⟨-, v, hv, -, -⟩ := hQ k idx sv ids hmem hb hk
    simp at hv
  | cons fv rest ih =>
    obtain ⟨f, vf⟩ := fv
    intro st im hnd hbnd hQ
    rw [removeRowEntries]
    cases hg : im.getIndex tname f with
    | none =>
      refine ih st im hnd hbnd ?_
      intro k idx sv ids hmem hb hk
      obtain ⟨hshape, v, hv, hvn, hsv⟩ := hQ k idx sv ids hmem hb hk
      refine ⟨hshape, v, ?_, hvn, hsv⟩
      rcases List.mem_cons.mp hv with hv | hv
      · exfalso
        have hfn : idx.fieldName = f := congrArg Prod.fst hv
        rw [IndexManager.getIndex] at hg
        rw [hshape, hfn] at hmem
        exact alistGet_none_not_mem hg hmem
      · exact hv
    | some idx0 =>
      have hgA : alistGet im.indexes (tname ++ ":" ++ f) = some idx0 := hg
      have hmem0 : (tname ++ ":" ++ f, idx0) ∈ im.indexes := alistGet_mem hgA
      have hnd2 : (((im.setIndex (tname ++ ":" ++ f)
          (idx0.removeEntry st rowKey vf).1).indexes).map Prod.fst).Nodup := by
        rw [IndexManager.setIndex]
        rw [alistSet_keys_of_mem _ (alistGet_mem_keys hgA)]
        exact hnd
      refine ih _ _ hnd2 ?_ ?_
      · intro k idx hmem
        rcases mem_alistSet hmem with hmem | hmem
        · have hidx : idx = (idx0.removeEntry st rowKey vf).1 :=
            congrArg Prod.snd hmem
          rw [hidx]
          exact removeEntry_nodup idx0 st rowKey vf (hbnd _ idx0 hmem0)
        · exact hbnd k idx hmem
      · intro k idx sv ids hmem hb hk
        rcases mem_alistSet_cases hnd hmem with ⟨hkeq, hidxeq⟩ | ⟨hkne, hmem'⟩
        · rw [hidxeq] at hb
          have hrev := removeEntry_buckets_rev idx0 st rowKey vf
            (hbnd _ idx0 hmem0) hb hk
          obtain ⟨hshape0, v, hv, hvn, hsv⟩ :=
            hQ _ idx0 sv ids hmem0 hrev.1 hk
          have hfn2 : idx.fieldName = idx0.fieldName := by
            rw [hidxeq]
            exact (removeEntry_fields idx0 st rowKey vf).2
          refine ⟨by rw [hkeq, hfn2]; exact hshape0, v, ?_, hvn, hsv⟩
          rw [hfn2]
          rcases List.mem_cons.mp hv with hv | hv
          · exfalso
            have hveq : v = vf := congrArg Prod.snd hv
            have hvfn : vf ≠ FVal.fnone := hveq ▸ hvn
            have : sv = strF vf := by rw [← hsv, hveq]
            exact hrev.2 hvfn this
          · exact hv
        · obtain ⟨hshape, v, hv, hvn, hsv⟩ := hQ k idx sv ids hmem' hb hk
          refine ⟨hshape, v, ?_, hvn, hsv⟩
          rcases List.mem_cons.mp hv with hv | hv
          · exfalso
            have hfn : idx.fieldName = f := congrArg Prod.fst hv
            rw [hfn] at hshape
            exact hkne hshape
          · exact hv

/-! ### Insert/update index fan-out frame lemmas -/

theorem str_assoc_idx (a b : String) :
    "idx:" ++ a ++ ":" ++ b = "idx:" ++ (a ++ ":" ++ b) := by
  simp [String.append_assoc]

theorem indexKey_of_wf {im : IndexManager} (him : imWF im = true) {k : String}
    {idx : Index} (hget : alistGet im.indexes k = some idx) :
    idx.indexKey = "idx:" ++ k := by
  have hw := imWF_mem him (alistGet_mem hget)
  rw [Index.indexKey, str_assoc_idx, hw]

theorem addRowEntries_lookup (tname rowKey target : String) :
    ∀ (fields : RowData) (st : KVStore) (im : IndexManager), imWF im = true →
      (∀ fv ∈ fields, ("idx:" ++ (tname ++ ":" ++ fv.1)) ≠ target) →
      ((addRowEntries tname fields rowKey st im).1).lookup target =
        st.lookup target := by
  intro fields
  induction fields with
  | nil => intro st im _ _; rfl
  | cons fv rest ih =>
    obtain ⟨f, v⟩ := fv
    intro st im him hdisj
    rw [addRowEntries]
    cases hg : im.getIndex tname f with
    | none => exact ih st im him (fun fv h => hdisj fv (List.mem_cons_of_mem _ h))
    | some idx =>
      have hgA : alistGet im.indexes (tname ++ ":" ++ f) = some idx := hg
      have hkey : idx.indexKey = "idx:" ++ (tname ++ ":" ++ f) :=
        indexKey_of_wf him hgA
      have him2 : imWF (im.setIndex (tname ++ ":" ++ f)
          (idx.addEntry st rowKey v).1) = true :=
        imWF_setIndex him hgA (addEntry_fields idx st rowKey v).1
          (addEntry_fields idx st rowKey v).2
      rw [ih _ _ him2 (fun fv h => hdisj fv (List.mem_cons_of_mem _ h))]
      exact addEntry_store idx st rowKey v target
        (by rw [hkey]; exact hdisj (f, v) (List.mem_cons_self _ _))

theorem updateRowEntries_manager (tname rowKey : String) :
    ∀ (ups row : RowData) (st : KVStore) (im : IndexManager) (k2 : String),
      (∀ fv ∈ ups, tname ++ ":" ++ fv.1 ≠ k2) →
      alistGet ((updateRowEntries tname ups row rowKey st im).2).indexes k2 =
        alistGet im.indexes k2 := by
  intro ups
  induction ups with
  | nil => intro row st im k2 _; rfl
  | cons fv rest ih =>
    obtain ⟨f, nv⟩ := fv
    intro row st im k2 hdisj
    rw [updateRowEntries]
    cases hg : im.getIndex tname f with
    | none => exact ih row st im k2 (fun fv h => hdisj fv (List.mem_cons_of_mem _ h))
    | some idx =>
      rw [ih row _ _ k2 (fun fv h => hdisj fv (List.mem_cons_of_mem _ h))]
      rw [IndexManager.setIndex]
      exact alistGet_set_other _ _ _ _
        (Ne.symm (hdisj (f, nv) (List.mem_cons_self _ _)))

/-! ### Claim theorems -/

/-- C1: through the TransactionManager's scoped entry point, the staged
set/delete operations of the body never touch the underlying store — after
any prefix of the body the store equals its state at scope entry — and if
the body raises, the scope rolls back and re-raises with the underlying
store unchanged from scope entry. -/
theorem scoped_txn_isolation (st : KVStore) (ops : List TxOp) (n : Nat)
    (t' : Txn) (st2 : KVStore) (r : Bool)
    (h : runOps (ops.take n) Txn.new st = (t', st2, r)) (failIdx : Option Nat) :
    st2 = st ∧ runScope st ops true failIdx = (st, true) := by
  constructor
  · have hs := runOps_store (ops.take n) Txn.new st
    rw [h] at hs
    exact hs
  · have hst := runOps_store ops Txn.new st
    rw [runScope]
    cases hb : (runOps ops Txn.new st).2.2 <;> simp [hb, hst]

theorem scoped_txn_isolation_witness :
    runOps ([TxOp.tset "a" "1", TxOp.tdel "b"].take 1) Txn.new ⟨"d", []⟩ =
      (⟨[("a", "1")], [], false, false⟩, ⟨"d", []⟩, false) ∧
    ((⟨"d", []⟩ : KVStore) = ⟨"d", []⟩ ∧
      runScope ⟨"d", []⟩ [TxOp.tset "a" "1", TxOp.tdel "b"] true none =
        (⟨"d", []⟩, true)) :=
  ⟨by decide,
    scoped_txn_isolation ⟨"d", []⟩ [TxOp.tset "a" "1", TxOp.tdel "b"] 1
      ⟨[("a", "1")], [], false, false⟩ ⟨"d", []⟩ false (by decide) none⟩

/-- C2: an active transaction's commit applies every staged set, then every
staged delete, in that order, against the bound store and only then sets the
committed flag; a mid-application failure leaves the already-applied prefix
of writes in the store, clears only the in-memory staged buffers (ending
rolled back, not committed), and raises a transaction error. -/
theorem commit_sets_then_deletes (t : Txn) (st : KVStore)
    (hc : t.committed = false) (hr : t.rolledBack = false)
    (t2 : Txn) (st2 : KVStore) (hc2 : t2.committed = false)
    (hr2 : t2.rolledBack = false) (i : Nat) (hi : i < t2.stagedOps.length) :
    t.commit st none =
      ({ t with committed := true },
        t.deletions.foldl KVStore.delete
          (t.changes.foldl (fun s p => s.set p.1 p.2) st), false) ∧
    t2.commit st2 (some i) =
      (⟨[], [], false, true⟩, (applyOps (t2.stagedOps.take i) st2 none).1, true) :=
  ⟨commit_success t st hc hr, commit_fail t2 st2 i hc2 hr2 hi⟩

theorem commit_sets_then_deletes_witness :
    ((⟨[("a", "1")], ["b"], false, false⟩ : Txn).committed = false ∧
      (⟨[("a", "1")], ["b"], false, false⟩ : Txn).rolledBack = false ∧
      1 < (⟨[("a", "1")], ["b"], false, false⟩ : Txn).stagedOps.length) ∧
    ((⟨[("a", "1")], ["b"], false, false⟩ : Txn).commit ⟨"d", []⟩ none =
      ({ (⟨[("a", "1")], ["b"], false, false⟩ : Txn) with committed := true },
        (["b"] : List String).foldl KVStore.delete
          (([("a", "1")] : List (String × String)).foldl
            (fun s p => s.set p.1 p.2) ⟨"d", []⟩), false) ∧
     (⟨[("a", "1")], ["b"], false, false⟩ : Txn).commit ⟨"d", []⟩ (some 1) =
      (⟨[], [], false, true⟩,
        (applyOps ((⟨[("a", "1")], ["b"], false, false⟩ : Txn).stagedOps.take 1)
          ⟨"d", []⟩ none).1, true)) :=
  ⟨⟨by decide, by decide, by decide⟩,
    commit_sets_then_deletes ⟨[("a", "1")], ["b"], false, false⟩ ⟨"d", []⟩
      (by decide) (by decide) ⟨[("a", "1")], ["b"], false, false⟩ ⟨"d", []⟩
      (by decide) (by decide) 1 (by decide)⟩

/-- C3: inserting a validated row and querying the returned id yields
exactly the validated field mapping (the serialized row round-trips through
the JSON encoding, and the later index-blob writes land on `idx:`-keys
distinct from the row key). -/
theorem insert_query_roundtrip (t : TableCfg) (st : KVStore) (im : IndexManager)
    (newKey : String) (row vd : RowData) (rk : String) (st' : KVStore)
    (im' : IndexManager) (hval : validateRow t row = some vd)
    (him : imWF im = true)
    (hdisj : ∀ fv ∈ vd, "idx:" ++ (t.name ++ ":" ++ fv.1) ≠ t.name ++ ":" ++ newKey)
    (hins : Table.insert t st im newKey row = some (rk, st', im')) :
    rk = newKey ∧ Table.query t st' newKey = some (some vd) := by
  rw [Table.insert, hval] at hins
  have h := Option.some.inj hins
  have hrk : newKey = rk := congrArg Prod.fst h
  have hst' : (addRowEntries t.name vd newKey
      (st.set (t.name ++ ":" ++ newKey) (jsonDumps vd)) im).1 = st' :=
    congrArg (fun x => x.2.1) h
  refine ⟨hrk.symm, ?_⟩
  rw [← hst']
  apply query_stored
  rw [addRowEntries_lookup t.name newKey (t.name ++ ":" ++ newKey) vd _ im him hdisj]
  exact lookup_set_self _ _ _

theorem insert_query_roundtrip_witness :
    (validateRow ⟨"t", none⟩ [("a", FVal.fint 5)] = some [("a", FVal.fint 5)] ∧
      imWF ⟨[("t:a", ⟨"t", "a", []⟩)]⟩ = true ∧
      (∀ fv ∈ ([("a", FVal.fint 5)] : RowData),
        "idx:" ++ ("t" ++ ":" ++ fv.1) ≠ "t" ++ ":" ++ "k1") ∧
      Table.insert ⟨"t", none⟩ ⟨"d", []⟩ ⟨[("t:a", ⟨"t", "a", []⟩)]⟩ "k1"
        [("a", FVal.fint 5)] =
        some ("k1",
          ⟨"d", [("t:k1", "\x7b\"a\": 5\x7d"),
                 ("idx:t:a", "\x7b\"5\": [\"k1\"]\x7d")]⟩,
          ⟨[("t:a", ⟨"t", "a", [("5", ["k1"])]⟩)]⟩)) ∧
    ("k1" = "k1" ∧
      Table.query ⟨"t", none⟩
        ⟨"d", [("t:k1", "\x7b\"a\": 5\x7d"),
               ("idx:t:a", "\x7b\"5\": [\"k1\"]\x7d")]⟩ "k1" =
        some (some [("a", FVal.fint 5)])) :=
  ⟨⟨rfl, by decide, by decide, by decide⟩,
    insert_query_roundtrip ⟨"t", none⟩ ⟨"d", []⟩ ⟨[("t:a", ⟨"t", "a", []⟩)]⟩ "k1"
      [("a", FVal.fint 5)] [("a", FVal.fint 5)] "k1"
      ⟨"d", [("t:k1", "\x7b\"a\": 5\x7d"), ("idx:t:a", "\x7b\"5\": [\"k1\"]\x7d")]⟩
      ⟨[("t:a", ⟨"t", "a", [("5", ["k1"])]⟩)]⟩ rfl (by decide) (by decide)
      (by decide)⟩

/-- C4: for a row reachable by inserts and updates (expressed by the index
consistency invariant `indexInvB`), once `Table.delete` returns true no
bucket of any index registered with the table's index manager still
contains the row's id: `find_rows` excludes it for every value. -/
theorem delete_clears_index_entries (t : TableCfg) (st : KVStore)
    (im : IndexManager) (key : String) (im' : IndexManager)
    (hnd : (im.indexes.map Prod.fst).Nodup)
    (hinv : indexInvB t st im = true)
    (hdel : (Table.delete t st im key).map (fun r => (r.1, r.2.2)) =
      some (true, im'))
    (k : String) (idx : Index) (hmem : (k, idx) ∈ im'.indexes) (v : FVal) :
    key ∉ idx.findRows v := by
  rw [Table.delete] at hdel
  cases hq : Table.query t st key with
  | none => rw [hq] at hdel; simp at hdel
  | some o =>
    cases o with
    | none => rw [hq] at hdel; simp at hdel
    | some row =>
      rw [hq] at hdel
      simp only [Option.map_some'] at hdel
      have him' : (removeRowEntries t.name row key st im).2 = im' :=
        congrArg Prod.snd (Option.some.inj hdel)
      have hspec := indexInvB_spec hinv
      have hclear := removeRowEntries_clears t.name key row st im hnd
        (fun k0 idx0 hm0 => (hspec k0 idx0 hm0).2.1) ?_
      · intro hkey
        rw [Index.findRows] at hkey
        cases hgb : alistGet idx.buckets (strF v) with
        | none => rw [hgb] at hkey; simp at hkey
        | some ids =>
          rw [hgb] at hkey
          simp only [Option.getD_some] at hkey
          exact hclear k idx (strF v) ids (him' ▸ hmem) (alistGet_mem hgb) hkey
      · intro k0 idx0 sv ids hm0 hb0 hk0
        obtain ⟨hshape, hbnd0, hrows⟩ := hspec k0 idx0 hm0
        obtain ⟨row', v', hq', hgv', hvn', hsv'⟩ := hrows sv ids hb0 key hk0
        rw [hq] at hq'
        have hrow : row = row' := Option.some.inj (Option.some.inj hq')
        refine ⟨hshape, v', ?_, hvn', hsv'⟩
        rw [hrow]
        exact alistGet_mem hgv'

theorem delete_clears_index_entries_witness :
    (((⟨[("t:a", ⟨"t", "a", [("1", ["r1"])]⟩)]⟩ : IndexManager).indexes.map
        Prod.fst).Nodup ∧
      indexInvB ⟨"t", none⟩ ⟨"d", [("t:r1", "\x7b\"a\": 1\x7d")]⟩
        ⟨[("t:a", ⟨"t", "a", [("1", ["r1"])]⟩)]⟩ = true ∧
      (Table.delete ⟨"t", none⟩ ⟨"d", [("t:r1", "\x7b\"a\": 1\x7d")]⟩
          ⟨[("t:a", ⟨"t", "a", [("1", ["r1"])]⟩)]⟩ "r1").map
          (fun r => (r.1, r.2.2)) =
        some (true, ⟨[("t:a", ⟨"t", "a", []⟩)]⟩) ∧
      ("t:a", (⟨"t", "a", []⟩ : Index)) ∈
        (⟨[("t:a", ⟨"t", "a", []⟩)]⟩ : IndexManager).indexes) ∧
    "r1" ∉ (⟨"t", "a", []⟩ : Index).findRows (FVal.fint 1) :=
  ⟨⟨by decide, by decide, by decide, by decide⟩,
    delete_clears_index_entries ⟨"t", none⟩ ⟨"d", [("t:r1", "\x7b\"a\": 1\x7d")]⟩
      ⟨[("t:a", ⟨"t", "a", [("1", ["r1"])]⟩)]⟩ "r1" ⟨[("t:a", ⟨"t", "a", []⟩)]⟩
      (by decide) (by decide) (by decide) "t:a" ⟨"t", "a", []⟩ (by decide)
      (FVal.fint 1)⟩

/-- C5: updating a stored row at a single field changes exactly that field
in the persisted row (query after update returns the merge of the old row
with the update), leaves every other field unchanged, touches only the
index registered on the updated field, and an update on an absent id
returns false leaving the store and all indexes unchanged. -/
theorem update_single_field_frame (t : TableCfg) (st : KVStore)
    (im : IndexManager) (key : String) (row : RowData) (f : String) (v : FVal)
    (st' : KVStore) (im' : IndexManager)
    (hsch : t.schema = none) (hq : Table.query t st key = some (some row))
    (hupd : Table.update t st im key [(f, v)] = some (true, st', im'))
    (g : String) (hg : g ≠ f) (k2 : String) (hk2 : k2 ≠ t.name ++ ":" ++ f)
    (st3 : KVStore) (im3 : IndexManager) (key3 : String) (ups3 : RowData)
    (habs : Table.query t st3 key3 = some none) :
    Table.query t st' key = some (some (dictMerge row [(f, v)])) ∧
    alistGet (dictMerge row [(f, v)]) f = some v ∧
    alistGet (dictMerge row [(f, v)]) g = alistGet row g ∧
    alistGet im'.indexes k2 = alistGet im.indexes k2 ∧
    Table.update t st3 im3 key3 ups3 = some (false, st3, im3) := by
  have hv : validateRow t (dictMerge row [(f, v)]) =
      some (dictMerge row [(f, v)]) := by rw [validateRow, hsch]
  rw [Table.update, hq] at hupd
  have hupd2 : (match validateRow t (dictMerge row [(f, v)]) with
      | none => none
      | some vd =>
        some (true,
          ((updateRowEntries t.name [(f, v)] row key st im).1).set
            (t.name ++ ":" ++ key) (jsonDumps vd),
          (updateRowEntries t.name [(f, v)] row key st im).2)) =
      some (true, st', im') := hupd
  rw [hv] at hupd2
  have hupd3 : some (true,
      ((updateRowEntries t.name [(f, v)] row key st im).1).set
        (t.name ++ ":" ++ key) (jsonDumps (dictMerge row [(f, v)])),
      (updateRowEntries t.name [(f, v)] row key st im).2) =
      some (true, st', im') := hupd2
  have h := Option.some.inj hupd3
  have hst' : ((updateRowEntries t.name [(f, v)] row key st im).1).set
      (t.name ++ ":" ++ key) (jsonDumps (dictMerge row [(f, v)])) = st' :=
    congrArg (fun x => x.2.1) h
  have him' : (updateRowEntries t.name [(f, v)] row key st im).2 = im' :=
    congrArg (fun x => x.2.2) h
  refine ⟨?_, ?_, ?_, ?_, ?_⟩
  · rw [← hst']
    exact query_stored _ _ _ _ (lookup_set_self _ _ _)
  · exact alistGet_set_self row f v
  · exact alistGet_set_other row f g v hg
  · rw [← him']
    refine updateRowEntries_manager t.name key [(f, v)] row st im k2 ?_
    intro fv hfv
    have : fv = (f, v) := List.mem_singleton.mp hfv
    rw [this]
    exact Ne.symm hk2
  · rw [Table.update, habs]

theorem update_single_field_frame_witness :
    ((⟨"t", none⟩ : TableCfg).schema = none ∧
      Table.query ⟨"t", none⟩
        ⟨"d", [("t:r1", "\x7b\"a\": 1, \"b\": \"x\"\x7d")]⟩ "r1" =
        some (some [("a", FVal.fint 1), ("b", FVal.fstr "x")]) ∧
      Table.update ⟨"t", none⟩
        ⟨"d", [("t:r1", "\x7b\"a\": 1, \"b\": \"x\"\x7d")]⟩ ⟨[]⟩ "r1"
        [("a", FVal.fint 2)] =
        some (true, ⟨"d", [("t:r1", "\x7b\"a\": 2, \"b\": \"x\"\x7d")]⟩, ⟨[]⟩) ∧
      ("b" : String) ≠ "a" ∧ ("x:other" : String) ≠ "t" ++ ":" ++ "a" ∧
      Table.query ⟨"t", none⟩ ⟨"d2", []⟩ "nope" = some none) ∧
    (Table.query ⟨"t", none⟩ ⟨"d", [("t:r1", "\x7b\"a\": 2, \"b\": \"x\"\x7d")]⟩
        "r1" =
      some (some (dictMerge [("a", FVal.fint 1), ("b", FVal.fstr "x")]
        [("a", FVal.fint 2)])) ∧
     alistGet (dictMerge [("a", FVal.fint 1), ("b", FVal.fstr "x")]
       [("a", FVal.fint 2)]) "a" = some (FVal.fint 2) ∧
     alistGet (dictMerge [("a", FVal.fint 1), ("b", FVal.fstr "x")]
       [("a", FVal.fint 2)]) "b" =
       alistGet [("a", FVal.fint 1), ("b", FVal.fstr "x")] "b" ∧
     alistGet (⟨[]⟩ : IndexManager).indexes "x:other" =
       alistGet (⟨[]⟩ : IndexManager).indexes "x:other" ∧
     Table.update ⟨"t", none⟩ ⟨"d2", []⟩ ⟨[]⟩ "nope" [("a", FVal.fint 9)] =
       some (false, ⟨"d2", []⟩, ⟨[]⟩)) :=
  ⟨⟨rfl, by decide, by decide, by decide, by decide, by decide⟩,
    update_single_field_frame ⟨"t", none⟩
      ⟨"d", [("t:r1", "\x7b\"a\": 1, \"b\": \"x\"\x7d")]⟩ ⟨[]⟩ "r1"
      [("a", FVal.fint 1), ("b", FVal.fstr "x")] "a" (FVal.fint 2)
      ⟨"d", [("t:r1", "\x7b\"a\": 2, \"b\": \"x\"\x7d")]⟩ ⟨[]⟩ rfl (by decide)
      (by decide) "b" (by decide) "x:other" (by decide) ⟨"d2", []⟩ ⟨[]⟩ "nope"
      [("a", FVal.fint 9)] (by decide)⟩

/-- C6: whenever `Table.delete` returns, a subsequent `Table.query` on the
same id reports "no row" (the storage key is deleted last, after the index
cleanup); and deleting an id whose query reports "no row" returns false
and leaves both the store and the index manager untouched. -/
theorem delete_then_query_none (t : TableCfg) (st : KVStore) (im : IndexManager)
    (key : String) (b : Bool) (st' : KVStore) (im' : IndexManager)
    (hdel : Table.delete t st im key = some (b, st', im'))
    (st3 : KVStore) (im3 : IndexManager) (key3 : String)
    (habs : Table.query t st3 key3 = some none) :
    Table.query t st' key = some none ∧
    Table.delete t st3 im3 key3 = some (false, st3, im3) := by
  constructor
  · rw [Table.delete] at hdel
    cases hq : Table.query t st key with
    | none => rw [hq] at hdel; simp at hdel
    | some o =>
      cases o with
      | none =>
        rw [hq] at hdel
        have h := Option.some.inj hdel
        have hst' : st = st' := congrArg (fun x => x.2.1) h
        rw [← hst']
        exact hq
      | some row =>
        rw [hq] at hdel
        have h := Option.some.inj hdel
        have hst' : ((removeRowEntries t.name row key st im).1).delete
            (t.name ++ ":" ++ key) = st' := congrArg (fun x => x.2.1) h
        rw [← hst']
        exact query_absent _ _ _ (lookup_del_self _ _)
  · rw [Table.delete, habs]

theorem delete_then_query_none_witness :
    (Table.delete ⟨"t", none⟩ ⟨"d", [("t:r1", "\x7b\"a\": 1\x7d")]⟩ ⟨[]⟩ "r1" =
        some (true, ⟨"d", []⟩, ⟨[]⟩) ∧
      Table.query ⟨"t", none⟩ ⟨"d2", []⟩ "nope" = some none) ∧
    (Table.query ⟨"t", none⟩ ⟨"d", []⟩ "r1" = some none ∧
      Table.delete ⟨"t", none⟩ ⟨"d2", []⟩ ⟨[]⟩ "nope" =
        some (false, ⟨"d2", []⟩, ⟨[]⟩)) :=
  ⟨⟨by decide, by decide⟩,
    delete_then_query_none ⟨"t", none⟩ ⟨"d", [("t:r1", "\x7b\"a\": 1\x7d")]⟩ ⟨[]⟩
      "r1" true ⟨"d", []⟩ ⟨[]⟩ (by decide) ⟨"d2", []⟩ ⟨[]⟩ "nope" (by decide)⟩

/-- C7: on an active transaction, `delete(k)` evicts `k` from the staged
changes and appends it to the staged deletions; and since commit applies
sets before deletes, any active transaction whose deletions contain `k`
ends a fully successful commit with `k` absent from the underlying
store — a key staged in both buffers resolves to deletion. -/
theorem txn_delete_evicts (t : Txn) (k : String)
    (hc : t.committed = false) (hr : t.rolledBack = false)
    (t' : Txn) (hdel : t.delete k = .ok t')
    (t2 : Txn) (st : KVStore) (hc2 : t2.committed = false)
    (hr2 : t2.rolledBack = false) (hk2 : k ∈ t2.deletions) :
    alistGet t'.changes k = none ∧ t'.deletions = t.deletions ++ [k] ∧
    k ∈ t'.deletions ∧
    ((t2.commit st none).2.1).lookup k = none ∧
    (t2.commit st none).2.2 = false := by
  rw [Txn.delete, if_neg (by rw [hc, hr]; simp)] at hdel
  have ht' := Except.ok.inj hdel
  refine ⟨?_, ?_, ?_, ?_, ?_⟩
  · rw [← ht']
    exact alistGet_del_self t.changes k
  · rw [← ht']
  · rw [← ht']
    show k ∈ t.deletions ++ [k]
    simp
  · rw [commit_success t2 st hc2 hr2]
    exact lookup_foldl_del_mem t2.deletions _ k hk2
  · rw [commit_success t2 st hc2 hr2]

theorem txn_delete_evicts_witness :
    ((⟨[("a", "1")], [], false, false⟩ : Txn).committed = false ∧
      (⟨[("a", "1")], [], false, false⟩ : Txn).rolledBack = false ∧
      (⟨[("a", "1")], [], false, false⟩ : Txn).delete "a" =
        .ok ⟨[], ["a"], false, false⟩ ∧
      (⟨[], ["a"], false, false⟩ : Txn).committed = false ∧
      (⟨[], ["a"], false, false⟩ : Txn).rolledBack = false ∧
      "a" ∈ (⟨[], ["a"], false, false⟩ : Txn).deletions) ∧
    (alistGet (⟨[], ["a"], false, false⟩ : Txn).changes "a" = none ∧
      (⟨[], ["a"], false, false⟩ : Txn).deletions = [] ++ ["a"] ∧
      "a" ∈ (⟨[], ["a"], false, false⟩ : Txn).deletions ∧
      (((⟨[], ["a"], false, false⟩ : Txn).commit ⟨"d", [("a", "0")]⟩
          none).2.1).lookup "a" = none ∧
      ((⟨[], ["a"], false, false⟩ : Txn).commit ⟨"d", [("a", "0")]⟩
        none).2.2 = false) :=
  ⟨⟨by decide, by decide, rfl, by decide, by decide, by decide⟩,
    txn_delete_evicts ⟨[("a", "1")], [], false, false⟩ "a" (by decide)
      (by decide) ⟨[], ["a"], false, false⟩ rfl
      ⟨[], ["a"], false, false⟩ ⟨"d", [("a", "0")]⟩ (by decide) (by decide)
      (by decide)⟩

/-- C8: after `delete(k)` then `set(k, v)` on an active transaction, `k`
remains in the staged deletions while also sitting in the staged changes:
the transaction's own `get(k)` returns `v`, yet a fully successful commit
leaves `k` absent from the underlying store, because staged sets are
applied before staged deletes and `set` never removes `k` from the
deletions list. -/
theorem txn_delete_then_set (t : Txn) (k v : String)
    (hc : t.committed = false) (hr : t.rolledBack = false)
    (t1 t2 : Txn) (h1 : t.delete k = .ok t1) (h2 : t1.set k v = .ok t2)
    (stq st : KVStore) :
    alistGet t2.changes k = some v ∧ k ∈ t2.deletions ∧
    t2.get stq k = some v ∧
    ((t2.commit st none).2.1).lookup k = none ∧
    (t2.commit st none).2.2 = false := by
  rw [Txn.delete, if_neg (by rw [hc, hr]; simp)] at h1
  have ht1 := Except.ok.inj h1
  have hc1 : t1.committed = false := by rw [← ht1]; exact hc
  have hr1 : t1.rolledBack = false := by rw [← ht1]; exact hr
  rw [Txn.set, if_neg (by rw [hc1, hr1]; simp)] at h2
  have ht2 := Except.ok.inj h2
  have hch : alistGet t2.changes k = some v := by
    rw [← ht2]
    exact alistGet_set_self _ _ _
  have hdl : k ∈ t2.deletions := by
    rw [← ht2]
    show k ∈ t1.deletions
    rw [← ht1]
    show k ∈ t.deletions ++ [k]
    simp
  have hc2 : t2.committed = false := by rw [← ht2]; exact hc1
  have hr2 : t2.rolledBack = false := by rw [← ht2]; exact hr1
  refine ⟨hch, hdl, ?_, ?_, ?_⟩
  · simp [Txn.get, hch]
  · rw [commit_success t2 st hc2 hr2]
    exact lookup_foldl_del_mem _ _ _ hdl
  · rw [commit_success t2 st hc2 hr2]

theorem txn_delete_then_set_witness :
    ((Txn.new.committed = false ∧ Txn.new.rolledBack = false ∧
      Txn.new.delete "a" = .ok ⟨[], ["a"], false, false⟩ ∧
      (⟨[], ["a"], false, false⟩ : Txn).set "a" "2" =
        .ok ⟨[("a", "2")], ["a"], false, false⟩) ∧
     (alistGet (⟨[("a", "2")], ["a"], false, false⟩ : Txn).changes "a" =
        some "2" ∧
      "a" ∈ (⟨[("a", "2")], ["a"], false, false⟩ : Txn).deletions ∧
      (⟨[("a", "2")], ["a"], false, false⟩ : Txn).get ⟨"d", []⟩ "a" =
        some "2" ∧
      (((⟨[("a", "2")], ["a"], false, false⟩ : Txn).commit ⟨"d", []⟩
          none).2.1).lookup "a" = none ∧
      ((⟨[("a", "2")], ["a"], false, false⟩ : Txn).commit ⟨"d", []⟩
        none).2.2 = false)) :=
  ⟨⟨by decide, by decide, rfl, rfl⟩,
    txn_delete_then_set Txn.new "a" "2" (by decide) (by decide)
      ⟨[], ["a"], false, false⟩ ⟨[("a", "2")], ["a"], false, false⟩
      rfl rfl ⟨"d", []⟩ ⟨"d", []⟩⟩

/-- C9: `find_range(start, end)` returns exactly the union of the buckets
whose stringified key lies between `str(start)` and `str(end)` under
lexicographic string comparison — in particular `"10" ≤ "9"` but not
`"9" ≤ "10"`, so numeric ranges spanning digit counts select the wrong
buckets. -/
theorem findRange_lexicographic (idx : Index) (s e : FVal) (id : String) :
    (id ∈ idx.findRange s e ↔
      ∃ sv ids, (sv, ids) ∈ idx.buckets ∧
        lexLe (strF s).data sv.data = true ∧
        lexLe sv.data (strF e).data = true ∧ id ∈ ids) ∧
    lexLe ("10" : String).data ("9" : String).data = true ∧
    lexLe ("9" : String).data ("10" : String).data = false := by
  refine ⟨?_, by decide, by decide⟩
  rw [Index.findRange]
  simp only [List.mem_flatten, List.mem_map, List.mem_filter, Bool.and_eq_true]
  constructor
  · rintro ⟨l, ⟨p, ⟨hp, h1, h2⟩, rfl⟩, hid⟩
    exact ⟨p.1, p.2, hp, h1, h2, hid⟩
  · rintro ⟨sv, ids, hb, h1, h2, hid⟩
    exact ⟨ids, ⟨(sv, ids), ⟨hb, h1, h2⟩, rfl⟩, hid⟩

/-- C10: `get` on an absent key returns the sentinel string
`"Key <k> not found in <db>"` rather than an explicit absence marker, and
after storing that very string under the key, `get` returns the identical
value — absence is detectable only by inspecting the returned value's
shape. -/
theorem sentinel_indistinguishable (st : KVStore) (k : String)
    (h : st.lookup k = none) :
    st.get k = "Key " ++ k ++ " not found in " ++ st.dbName ∧
    (st.set k ("Key " ++ k ++ " not found in " ++ st.dbName)).get k =
      "Key " ++ k ++ " not found in " ++ st.dbName :=
  ⟨get_sentinel st k h,
    get_eq_of_lookup _ _ _ (lookup_set_self _ _ _)⟩

theorem sentinel_indistinguishable_witness :
    (⟨"d", []⟩ : KVStore).lookup "a" = none ∧
    ((⟨"d", []⟩ : KVStore).get "a" =
        "Key " ++ "a" ++ " not found in " ++ (⟨"d", []⟩ : KVStore).dbName ∧
      ((⟨"d", []⟩ : KVStore).set "a"
          ("Key " ++ "a" ++ " not found in " ++
            (⟨"d", []⟩ : KVStore).dbName)).get "a" =
        "Key " ++ "a" ++ " not found in " ++ (⟨"d", []⟩ : KVStore).dbName) :=
  ⟨by decide, sentinel_indistinguishable ⟨"d", []⟩ "a" (by decide)⟩

end MiniDB
